import Mathlib

/- Verification of the corpus chunking and pair synthesis pipeline of
   LucyGPT/make_data.py.  Python strings are modelled as lists of characters;
   the functions clean_text, join_paras, make_pairs and the record-building
   loop of main are translated below.  The process-wide random source is
   modelled by oracle parameters: random.randint as a function of its two
   inclusive bounds, random.choice of a template as a function of the current
   record count. -/

namespace MakeData

def MAX_RECORDS : Nat := 1200
def MIN_CHUNK_WORDS : Nat := 260
def MAX_CHUNK_WORDS : Nat := 420
def MIN_PROMPT_WORDS : Nat := 90
def MIN_RESPONSE_WORDS : Nat := 60
def MAX_RESPONSE_WORDS : Nat := 220

/-- Whitespace in the sense of Python str.split and str.strip (ASCII part). -/
def pyWsChar (c : Char) : Bool :=
  c == ' ' || c == '\t' || c == '\n' || c == '\r' || c == '\x0b' || c == '\x0c'

/-- Horizontal whitespace: the character class [ \t] of the regex in clean_text. -/
def isHWs (c : Char) : Bool := c == ' ' || c == '\t'

/-- Helper of pyWords; acc is the current word being read, reversed. -/
def pyWordsGo : List Char → List Char → List (List Char)
  | [], acc => if acc = [] then [] else [acc.reverse]
  | c :: rest, acc =>
    if pyWsChar c then
      if acc = [] then pyWordsGo rest [] else acc.reverse :: pyWordsGo rest []
    else pyWordsGo rest (c :: acc)

/-- Python str.split() with no separator: split on whitespace runs, keeping no
    empty words. -/
def pyWords (s : List Char) : List (List Char) := pyWordsGo s []

/-- Python " ".join. -/
def joinWords : List (List Char) → List Char
  | [] => []
  | w :: ws =>
    match ws with
    | [] => w
    | _ :: _ => w ++ ' ' :: joinWords ws

/-- Python str.strip(). -/
def pyStrip (l : List Char) : List Char :=
  ((l.dropWhile pyWsChar).reverse.dropWhile pyWsChar).reverse

/-- Word count of a string: len(s.split()). -/
def wordCount (s : List Char) : Nat := (pyWords s).length

/-- Python t.replace("\r\n", "\n"): left-to-right, non-overlapping. -/
def replaceCRLF : List Char → List Char
  | [] => []
  | [c] => [c]
  | c :: d :: rest =>
    if c = '\r' ∧ d = '\n' then '\n' :: replaceCRLF rest
    else c :: replaceCRLF (d :: rest)

/-- Python t.replace("\r", "\n"). -/
def replaceCR (l : List Char) : List Char :=
  l.map fun c => if c = '\r' then '\n' else c

/-- Helper of collapseHWs; the flag records whether we are inside a horizontal
    whitespace run whose single replacement space has already been emitted. -/
def collapseHWsGo : List Char → Bool → List Char
  | [], _ => []
  | c :: rest, inRun =>
    if isHWs c then
      if inRun then collapseHWsGo rest true else ' ' :: collapseHWsGo rest true
    else c :: collapseHWsGo rest false

/-- Python re.sub of the pattern [ \t]+ by a single space. -/
def collapseHWs (l : List Char) : List Char := collapseHWsGo l false

/-- Replacement for a finished run of k consecutive newlines under the
    re.sub collapsing runs of three or more newlines to two. -/
def emitNl (k : Nat) : List Char := List.replicate (if 3 ≤ k then 2 else k) '\n'

/-- Helper of collapseNl; k is the number of pending consecutive newlines. -/
def collapseNlGo : List Char → Nat → List Char
  | [], k => emitNl k
  | c :: rest, k =>
    if c = '\n' then collapseNlGo rest (k + 1)
    else emitNl k ++ c :: collapseNlGo rest 0

/-- Python re.sub collapsing every run of three or more newlines to two. -/
def collapseNl (l : List Char) : List Char := collapseNlGo l 0

/-- clean_text from make_data.py. -/
def clean_text (t : List Char) : List Char :=
  pyStrip (collapseNl (collapseHWs (replaceCR (replaceCRLF t))))

/-- Loop of join_paras; buf is buf_words, the pending word accumulator.
    Parameterized by the two word-count bounds so that the spec's concrete
    scenarios, which use bounds other than the module constants, can be
    stated; join_paras below instantiates the module constants. -/
def join_parasGo (minW maxW : Nat) :
    List (List Char) → List (List Char) → List (List Char)
  | [], buf => if minW ≤ buf.length then [joinWords buf] else []
  | p :: ps, buf =>
    let w := pyWords p
    if maxW ≤ w.length then
      (if minW ≤ buf.length then [joinWords buf] else []) ++
        joinWords (w.take maxW) :: join_parasGo minW maxW ps []
    else
      let buf' := buf ++ w
      if minW ≤ buf'.length then
        joinWords (buf'.take maxW) :: join_parasGo minW maxW ps (buf'.drop maxW)
      else
        join_parasGo minW maxW ps buf'

/-- join_paras from make_data.py. -/
def join_paras (paras : List (List Char)) : List (List Char) :=
  join_parasGo MIN_CHUNK_WORDS MAX_CHUNK_WORDS paras []

/-- make_pairs from make_data.py.  The call random.randint(a, b) is modelled
    by the oracle rand applied to the two bounds; int(len(words) * 0.60) is
    modelled as len * 60 / 100 (floor), the value the Python float expression
    takes at every word count arising here. -/
def make_pairs (rand : Nat → Nat → Nat) (chunk : List Char) :
    List (List Char × List Char) :=
  let words := pyWords chunk
  if words.length < MIN_PROMPT_WORDS + MIN_RESPONSE_WORDS then []
  else
    let cut_min := MIN_PROMPT_WORDS
    let cut_max := min (words.length - MIN_RESPONSE_WORDS) (words.length * 60 / 100)
    if cut_max ≤ cut_min then []
    else
      let cut := rand cut_min cut_max
      let prompt_part := pyStrip (joinWords (words.take cut))
      let resp_part := pyStrip (joinWords ((words.drop cut).take MAX_RESPONSE_WORDS))
      if (pyWords resp_part).length < MIN_RESPONSE_WORDS then []
      else [(prompt_part, resp_part)]

/-- The upper bound of the cut range computed inside make_pairs. -/
def cut_maxOf (chunk : List Char) : Nat :=
  min (wordCount chunk - MIN_RESPONSE_WORDS) (wordCount chunk * 60 / 100)

/-- A record written to train.jsonl: a prompt/response pair of strings. -/
structure TrainRecord where
  prompt : List Char
  response : List Char

/-- Inner loop of main over the pairs of one chunk: append a record built from
    the pair and the chosen template, then break once MAX_RECORDS is reached.
    tpl models random.choice over the template list as a function of the
    current record count. -/
def recordInner (tpl : Nat → List Char) :
    List (List Char × List Char) → List TrainRecord → List TrainRecord
  | [], recs => recs
  | (inp, out) :: ps, recs =>
    let recs' := recs ++ [⟨tpl recs.length ++ '\n' :: '\n' :: inp, out⟩]
    if MAX_RECORDS ≤ recs'.length then recs' else recordInner tpl ps recs'

/-- Outer loop of main over the chunks, breaking once MAX_RECORDS is reached. -/
def recordLoop (rand : Nat → Nat → Nat) (tpl : Nat → List Char) :
    List (List Char) → List TrainRecord → List TrainRecord
  | [], recs => recs
  | ch :: rest, recs =>
    let recs' := recordInner tpl (make_pairs rand ch) recs
    if MAX_RECORDS ≤ recs'.length then recs' else recordLoop rand tpl rest recs'

/-- The record list built by main from the shuffled chunk list. -/
def buildRecords (rand : Nat → Nat → Nat) (tpl : Nat → List Char)
    (chunks : List (List Char)) : List TrainRecord :=
  recordLoop rand tpl chunks []

/-! Basic facts about splitting and joining words. -/

/-- A word as produced by pyWords: nonempty and free of whitespace. -/
def IsToken (w : List Char) : Prop := w ≠ [] ∧ ∀ c ∈ w, pyWsChar c = false

theorem pyWordsGo_tokens (s : List Char) :
    ∀ acc, (∀ c ∈ acc, pyWsChar c = false) →
      ∀ w ∈ pyWordsGo s acc, IsToken w := by
  induction s with
  | nil =>
    intro acc hacc w hw
    by_cases h : acc = []
    · simp [pyWordsGo, h] at hw
    · simp only [pyWordsGo, if_neg h, List.mem_singleton] at hw
      subst hw
      exact ⟨by simpa using h, by simpa using hacc⟩
  | cons c rest ih =>
    intro acc hacc w hw
    simp only [pyWordsGo] at hw
    by_cases hc : pyWsChar c
    · rw [if_pos hc] at hw
      by_cases h : acc = []
      · rw [if_pos h] at hw
        exact ih [] (by simp) w hw
      · rw [if_neg h, List.mem_cons] at hw
        rcases hw with hw | hw
        · subst hw; exact ⟨by simpa using h, by simpa using hacc⟩
        · exact ih [] (by simp) w hw
    · rw [if_neg hc] at hw
      refine ih (c :: acc) ?_ w hw
      intro d hd
      rcases List.mem_cons.mp hd with hd | hd
      · subst hd; simpa using hc
      · exact hacc d hd

theorem pyWords_tokens (s : List Char) : ∀ w ∈ pyWords s, IsToken w :=
  pyWordsGo_tokens s [] (by simp)

theorem pyWordsGo_append (w : List Char) (hw : ∀ c ∈ w, pyWsChar c = false) :
    ∀ s acc, pyWordsGo (w ++ s) acc = pyWordsGo s (w.reverse ++ acc) := by
  induction w with
  | nil => intro s acc; simp
  | cons c w' ih =>
    intro s acc
    have hc : pyWsChar c = false := hw c (by simp)
    simp only [List.cons_append, pyWordsGo, hc]
    rw [if_neg (by simp), List.append_eq,
      ih (fun d hd => hw d (by simp [hd])) s (c :: acc)]
    simp

theorem joinWords_nil : joinWords [] = [] := rfl

theorem joinWords_single (w : List Char) : joinWords [w] = w := rfl

theorem joinWords_cons2 (w x : List Char) (ws : List (List Char)) :
    joinWords (w :: x :: ws) = w ++ ' ' :: joinWords (x :: ws) := rfl

theorem pyWords_joinWords : ∀ ws : List (List Char), (∀ w ∈ ws, IsToken w) →
    pyWords (joinWords ws) = ws := by
  intro ws
  induction ws with
  | nil => intro _; rfl
  | cons w ws ih =>
    intro hws
    obtain ⟨hne, hchars⟩ := hws w (by simp)
    cases ws with
    | nil =>
      show pyWordsGo (joinWords [w]) [] = [w]
      rw [joinWords_single, ← List.append_nil w, pyWordsGo_append w hchars]
      simp [pyWordsGo, hne]
    | cons x ws' =>
      show pyWordsGo (joinWords (w :: x :: ws')) [] = w :: x :: ws'
      rw [joinWords_cons2, pyWordsGo_append w hchars]
      have hsp : pyWsChar ' ' = true := rfl
      have hrev : w.reverse ++ ([] : List Char) ≠ [] := by simpa using hne
      simp only [pyWordsGo, hsp, if_pos, if_neg hrev]
      rw [List.append_nil, List.reverse_reverse]
      exact congrArg (w :: ·) (ih (fun v hv => hws v (by simp [hv])))

theorem wordCount_joinWords (ws : List (List Char)) (h : ∀ w ∈ ws, IsToken w) :
    wordCount (joinWords ws) = ws.length := by
  rw [wordCount, pyWords_joinWords ws h]

theorem joinWords_head? (ws : List (List Char)) (h : ∀ w ∈ ws, IsToken w) :
    ∀ c, (joinWords ws).head? = some c → pyWsChar c = false := by
  cases ws with
  | nil => intro c hc; simp [joinWords_nil] at hc
  | cons w ws' =>
    intro c hc
    obtain ⟨hne, hchars⟩ := h w (by simp)
    rcases w with _ | ⟨d, w''⟩
    · exact absurd rfl hne
    cases ws' with
    | nil =>
      rw [joinWords_single] at hc
      simp only [List.head?_cons, Option.some_inj] at hc
      subst hc; exact hchars _ (by simp)
    | cons x ws'' =>
      rw [joinWords_cons2, List.cons_append, List.head?_cons,
        Option.some_inj] at hc
      subst hc; exact hchars _ (by simp)

theorem joinWords_ne_nil (w : List Char) (ws : List (List Char)) (hne : w ≠ []) :
    joinWords (w :: ws) ≠ [] := by
  cases ws with
  | nil => simpa [joinWords_single] using hne
  | cons x ws' =>
    rw [joinWords_cons2]
    rcases w with _ | ⟨d, w''⟩
    · exact absurd rfl hne
    · simp

theorem joinWords_getLast? : ∀ ws : List (List Char), (∀ w ∈ ws, IsToken w) →
    ∀ c, (joinWords ws).getLast? = some c → pyWsChar c = false := by
  intro ws
  induction ws with
  | nil => intro _ c hc; simp [joinWords_nil] at hc
  | cons w ws' ih =>
    intro h c hc
    obtain ⟨hne, hchars⟩ := h w (by simp)
    cases ws' with
    | nil =>
      rw [joinWords_single] at hc
      exact hchars c (List.mem_of_mem_getLast? (by simpa using hc))
    | cons x ws'' =>
      rw [joinWords_cons2] at hc
      have hx : joinWords (x :: ws'') ≠ [] :=
        joinWords_ne_nil x ws'' (h x (by simp)).1
      rw [List.getLast?_append_of_ne_nil w (by simp),
        show (' ' :: joinWords (x :: ws'')) = [' '] ++ joinWords (x :: ws'')
          from rfl,
        List.getLast?_append_of_ne_nil _ hx] at hc
      exact ih (fun v hv => h v (by simp [hv])) c hc

theorem dropWhile_eq_self_of_head (l : List Char)
    (h : ∀ c, l.head? = some c → pyWsChar c = false) :
    l.dropWhile pyWsChar = l := by
  cases l with
  | nil => rfl
  | cons d t =>
    have hd := h d rfl
    simp [List.dropWhile, hd]

theorem pyStrip_eq_self (l : List Char)
    (h1 : ∀ c, l.head? = some c → pyWsChar c = false)
    (h2 : ∀ c, l.getLast? = some c → pyWsChar c = false) :
    pyStrip l = l := by
  have e : pyStrip l = List.rdropWhile pyWsChar (List.dropWhile pyWsChar l) := rfl
  rw [e, dropWhile_eq_self_of_head l h1, List.rdropWhile_eq_self_iff]
  intro hl hp
  have := h2 (l.getLast hl) (List.getLast?_eq_getLast_of_ne_nil hl)
  rw [this] at hp
  exact absurd hp (by simp)

theorem pyStrip_joinWords (ws : List (List Char)) (h : ∀ w ∈ ws, IsToken w) :
    pyStrip (joinWords ws) = joinWords ws :=
  pyStrip_eq_self _ (joinWords_head? ws h) (joinWords_getLast? ws h)

/-! Facts about make_pairs. -/

/-- Evaluated form of make_pairs: the strip and re-split steps are identities
    on joins of whitespace-free words. -/
theorem make_pairs_eq (rand : Nat → Nat → Nat) (chunk : List Char) :
    make_pairs rand chunk =
      if wordCount chunk < MIN_PROMPT_WORDS + MIN_RESPONSE_WORDS then []
      else if cut_maxOf chunk ≤ MIN_PROMPT_WORDS then []
      else if (((pyWords chunk).drop
            (rand MIN_PROMPT_WORDS (cut_maxOf chunk))).take
            MAX_RESPONSE_WORDS).length < MIN_RESPONSE_WORDS then []
      else [(joinWords ((pyWords chunk).take
               (rand MIN_PROMPT_WORDS (cut_maxOf chunk))),
             joinWords (((pyWords chunk).drop
               (rand MIN_PROMPT_WORDS (cut_maxOf chunk))).take
               MAX_RESPONSE_WORDS))] := by
  have htok : ∀ w ∈ pyWords chunk, IsToken w := pyWords_tokens chunk
  have h1 : ∀ w ∈ (pyWords chunk).take
      (rand MIN_PROMPT_WORDS (min ((pyWords chunk).length - MIN_RESPONSE_WORDS)
        ((pyWords chunk).length * 60 / 100))), IsToken w :=
    fun w hw => htok w (List.take_subset _ _ hw)
  have h2 : ∀ w ∈ ((pyWords chunk).drop
      (rand MIN_PROMPT_WORDS (min ((pyWords chunk).length - MIN_RESPONSE_WORDS)
        ((pyWords chunk).length * 60 / 100)))).take MAX_RESPONSE_WORDS,
      IsToken w :=
    fun w hw => htok w (List.drop_subset _ _ (List.take_subset _ _ hw))
  simp only [make_pairs]
  rw [pyStrip_joinWords _ h1, pyStrip_joinWords _ h2, pyWords_joinWords _ h2]
  rfl

/-- Tokens: a list of single-letter words. -/
theorem tokens_replicate (n : Nat) :
    ∀ w ∈ List.replicate n (['a'] : List Char), IsToken w := by
  intro w hw
  rw [List.eq_of_mem_replicate hw]
  exact ⟨by simp, by decide⟩

theorem pyWords_replicate (n : Nat) :
    pyWords (joinWords (List.replicate n (['a'] : List Char))) =
      List.replicate n ['a'] :=
  pyWords_joinWords _ (tokens_replicate n)

theorem wordCount_replicate (n : Nat) :
    wordCount (joinWords (List.replicate n (['a'] : List Char))) = n := by
  rw [wordCount, pyWords_replicate, List.length_replicate]

/-- Shared helper: a degenerate cut range makes make_pairs return nothing. -/
theorem make_pairs_nil_of_cutmax_le (rand : Nat → Nat → Nat) (chunk : List Char)
    (h : cut_maxOf chunk ≤ MIN_PROMPT_WORDS) : make_pairs rand chunk = [] := by
  rw [make_pairs_eq]
  split_ifs <;> rfl

/-- C1 counterexample: on a chunk of exactly 150 words (with the module's
    constants MIN_PROMPT_WORDS = 90, MIN_RESPONSE_WORDS = 60,
    MAX_RESPONSE_WORDS = 220) make_pairs returns the empty list: the chunk is
    rejected, no pair with a cut at 90 is produced. -/
theorem make_pairs_150_counterexample :
    make_pairs (fun a _ => a) (joinWords (List.replicate 150 ['a'])) = [] := by
  apply make_pairs_nil_of_cutmax_le
  rw [cut_maxOf, wordCount_replicate]
  decide

/-- C1 (amended): for a chunk of exactly 150 words with MIN_PROMPT_WORDS=90,
    MIN_RESPONSE_WORDS=60, MAX_RESPONSE_WORDS=220, the cut range degenerates
    to lower bound = upper bound = 90 and make_pairs rejects the chunk,
    producing no pair, because acceptance requires the upper bound to be
    strictly greater than the lower bound. -/
theorem make_pairs_rejects_150 (rand : Nat → Nat → Nat) (chunk : List Char)
    (h : wordCount chunk = 150) : make_pairs rand chunk = [] := by
  apply make_pairs_nil_of_cutmax_le
  rw [cut_maxOf, h]
  decide

/-- Witness for the amended C1 at a concrete 150-word chunk. -/
theorem make_pairs_rejects_150_witness :
    wordCount (joinWords (List.replicate 150 ['a'])) = 150 ∧
      make_pairs (fun _ b => b) (joinWords (List.replicate 150 ['a'])) = [] :=
  ⟨wordCount_replicate 150,
    make_pairs_rejects_150 (fun _ b => b) _ (wordCount_replicate 150)⟩

/-- The cut-range upper bound for a 200-word chunk. -/
theorem cut_maxOf_200 :
    cut_maxOf (joinWords (List.replicate 200 ['a'])) = 120 := by
  rw [cut_maxOf, wordCount_replicate]
  decide

/-- C2: every pair produced by make_pairs has a prompt of at least
    MIN_PROMPT_WORDS words, a response whose word count lies in
    [MIN_RESPONSE_WORDS, MAX_RESPONSE_WORDS], and a prompt of at most
    0.60 times the chunk's word count (stated as 5 * prompt ≤ 3 * total).
    The randint oracle is assumed to return a value inside the requested
    inclusive range. -/
theorem make_pairs_pair_bounds (rand : Nat → Nat → Nat) (chunk : List Char)
    (hlo : MIN_PROMPT_WORDS ≤ rand MIN_PROMPT_WORDS (cut_maxOf chunk))
    (hhi : rand MIN_PROMPT_WORDS (cut_maxOf chunk) ≤ cut_maxOf chunk) :
    ∀ pr ∈ make_pairs rand chunk,
      MIN_PROMPT_WORDS ≤ wordCount pr.1 ∧
      MIN_RESPONSE_WORDS ≤ wordCount pr.2 ∧
      wordCount pr.2 ≤ MAX_RESPONSE_WORDS ∧
      5 * wordCount pr.1 ≤ 3 * wordCount chunk := by
  intro pr hpr
  rw [make_pairs_eq] at hpr
  split_ifs at hpr with hA hB hC
  · simp at hpr
  · simp at hpr
  · simp at hpr
  · rw [List.mem_singleton] at hpr
    subst hpr
    dsimp only
    have htok := pyWords_tokens chunk
    have hn : wordCount chunk = (pyWords chunk).length := rfl
    have hcm1 : cut_maxOf chunk ≤ wordCount chunk - MIN_RESPONSE_WORDS :=
      min_le_left _ _
    have hcm2 : cut_maxOf chunk ≤ wordCount chunk * 60 / 100 :=
      min_le_right _ _
    have hp1 : wordCount (joinWords ((pyWords chunk).take
        (rand MIN_PROMPT_WORDS (cut_maxOf chunk)))) =
        rand MIN_PROMPT_WORDS (cut_maxOf chunk) := by
      rw [wordCount_joinWords _ (fun w hw => htok w (List.take_subset _ _ hw)),
        List.length_take]
      omega
    have hp2 : wordCount (joinWords (((pyWords chunk).drop
        (rand MIN_PROMPT_WORDS (cut_maxOf chunk))).take MAX_RESPONSE_WORDS)) =
        (((pyWords chunk).drop
          (rand MIN_PROMPT_WORDS (cut_maxOf chunk))).take
            MAX_RESPONSE_WORDS).length :=
      wordCount_joinWords _
        (fun w hw => htok w (List.drop_subset _ _ (List.take_subset _ _ hw)))
    have hdiv : rand MIN_PROMPT_WORDS (cut_maxOf chunk) * 100 ≤
        wordCount chunk * 60 :=
      (Nat.le_div_iff_mul_le (by norm_num)).mp (le_trans hhi hcm2)
    refine ⟨?_, ?_, ?_, ?_⟩
    · rw [hp1]; exact hlo
    · rw [hp2]; omega
    · rw [hp2, List.length_take]
      exact min_le_left _ _
    · rw [hp1]; omega

/-- Witness for C2 at a 200-word chunk and the low-end randint oracle. -/
theorem make_pairs_pair_bounds_witness :
    MIN_PROMPT_WORDS ≤ cut_maxOf (joinWords (List.replicate 200 ['a'])) ∧
    ∀ pr ∈ make_pairs (fun a _ => a) (joinWords (List.replicate 200 ['a'])),
      MIN_PROMPT_WORDS ≤ wordCount pr.1 ∧
      MIN_RESPONSE_WORDS ≤ wordCount pr.2 ∧
      wordCount pr.2 ≤ MAX_RESPONSE_WORDS ∧
      5 * wordCount pr.1 ≤
        3 * wordCount (joinWords (List.replicate 200 ['a'])) :=
  ⟨by rw [cut_maxOf_200]; decide,
   make_pairs_pair_bounds (fun a _ => a) _ (le_refl _)
     (by rw [cut_maxOf_200]; decide)⟩

/-- C7: every pair accepted by make_pairs is an exact span split: for some cut
    index c in [MIN_PROMPT_WORDS, cut_maxOf], the prompt is exactly the words
    before c and the response exactly the next MAX_RESPONSE_WORDS words from c
    (so at most MAX_RESPONSE_WORDS words; words further past the cut are in
    neither span). -/
theorem make_pairs_span (rand : Nat → Nat → Nat) (chunk : List Char)
    (hlo : MIN_PROMPT_WORDS ≤ rand MIN_PROMPT_WORDS (cut_maxOf chunk))
    (hhi : rand MIN_PROMPT_WORDS (cut_maxOf chunk) ≤ cut_maxOf chunk) :
    ∀ pr ∈ make_pairs rand chunk, ∃ c,
      MIN_PROMPT_WORDS ≤ c ∧ c ≤ cut_maxOf chunk ∧
      pyWords pr.1 = (pyWords chunk).take c ∧
      pyWords pr.2 = ((pyWords chunk).drop c).take MAX_RESPONSE_WORDS := by
  intro pr hpr
  rw [make_pairs_eq] at hpr
  split_ifs at hpr with hA hB hC
  · simp at hpr
  · simp at hpr
  · simp at hpr
  · rw [List.mem_singleton] at hpr
    subst hpr
    dsimp only
    have htok := pyWords_tokens chunk
    exact ⟨rand MIN_PROMPT_WORDS (cut_maxOf chunk), hlo, hhi,
      pyWords_joinWords _ (fun w hw => htok w (List.take_subset _ _ hw)),
      pyWords_joinWords _
        (fun w hw => htok w (List.drop_subset _ _ (List.take_subset _ _ hw)))⟩

/-- Witness for C7 at a 200-word chunk and the low-end randint oracle. -/
theorem make_pairs_span_witness :
    MIN_PROMPT_WORDS ≤ cut_maxOf (joinWords (List.replicate 200 ['a'])) ∧
    ∀ pr ∈ make_pairs (fun a _ => a) (joinWords (List.replicate 200 ['a'])),
      ∃ c, MIN_PROMPT_WORDS ≤ c ∧
        c ≤ cut_maxOf (joinWords (List.replicate 200 ['a'])) ∧
        pyWords pr.1 =
          (pyWords (joinWords (List.replicate 200 ['a']))).take c ∧
        pyWords pr.2 =
          ((pyWords (joinWords (List.replicate 200 ['a']))).drop c).take
            MAX_RESPONSE_WORDS :=
  ⟨by rw [cut_maxOf_200]; decide,
   make_pairs_span (fun a _ => a) _ (le_refl _)
     (by rw [cut_maxOf_200]; decide)⟩

/-- C4: make_pairs returns the empty list exactly when the chunk is too short,
    or the cut-range upper bound is at most the lower bound, or the drawn
    response span holds fewer than MIN_RESPONSE_WORDS words; otherwise it
    returns exactly one pair.  Rejection is silent: the result is [], never an
    error. -/
theorem make_pairs_empty_iff (rand : Nat → Nat → Nat) (chunk : List Char) :
    (make_pairs rand chunk = [] ↔
      wordCount chunk < MIN_PROMPT_WORDS + MIN_RESPONSE_WORDS ∨
      cut_maxOf chunk ≤ MIN_PROMPT_WORDS ∨
      (((pyWords chunk).drop
          (rand MIN_PROMPT_WORDS (cut_maxOf chunk))).take
          MAX_RESPONSE_WORDS).length < MIN_RESPONSE_WORDS) ∧
    (¬ (wordCount chunk < MIN_PROMPT_WORDS + MIN_RESPONSE_WORDS ∨
        cut_maxOf chunk ≤ MIN_PROMPT_WORDS ∨
        (((pyWords chunk).drop
            (rand MIN_PROMPT_WORDS (cut_maxOf chunk))).take
            MAX_RESPONSE_WORDS).length < MIN_RESPONSE_WORDS) →
      (make_pairs rand chunk).length = 1) := by
  rw [make_pairs_eq]
  constructor
  · split_ifs with hA hB hC
    · exact iff_of_true rfl (Or.inl hA)
    · exact iff_of_true rfl (Or.inr (Or.inl hB))
    · exact iff_of_true rfl (Or.inr (Or.inr hC))
    · refine iff_of_false (by simp) ?_
      rintro (h | h | h)
      · exact hA h
      · exact hB h
      · exact hC h
  · intro h
    split_ifs with hA hB hC
    · exact absurd (Or.inl hA) h
    · exact absurd (Or.inr (Or.inl hB)) h
    · exact absurd (Or.inr (Or.inr hC)) h
    · rfl

/-- Witness for C4: at a 200-word chunk none of the rejection cases holds and
    exactly one pair is produced. -/
theorem make_pairs_empty_iff_witness :
    ¬ (wordCount (joinWords (List.replicate 200 ['a'])) <
          MIN_PROMPT_WORDS + MIN_RESPONSE_WORDS ∨
        cut_maxOf (joinWords (List.replicate 200 ['a'])) ≤ MIN_PROMPT_WORDS ∨
        (((pyWords (joinWords (List.replicate 200 ['a']))).drop
            MIN_PROMPT_WORDS).take MAX_RESPONSE_WORDS).length <
          MIN_RESPONSE_WORDS) ∧
    (make_pairs (fun a _ => a) (joinWords (List.replicate 200 ['a']))).length
      = 1 := by
  have hD : ¬ (wordCount (joinWords (List.replicate 200 ['a'])) <
      MIN_PROMPT_WORDS + MIN_RESPONSE_WORDS ∨
      cut_maxOf (joinWords (List.replicate 200 ['a'])) ≤ MIN_PROMPT_WORDS ∨
      (((pyWords (joinWords (List.replicate 200 ['a']))).drop
          MIN_PROMPT_WORDS).take MAX_RESPONSE_WORDS).length <
        MIN_RESPONSE_WORDS) := by
    rw [wordCount_replicate, cut_maxOf_200, pyWords_replicate]
    decide
  exact ⟨hD, (make_pairs_empty_iff (fun a _ => a) _).2 hD⟩

/-! Facts about join_paras. -/

/-- join_parasGo with the two flush branches removed: no flush of the pending
    accumulator before an oversized paragraph, no flush at end of stream. -/
def join_parasGoNF (minW maxW : Nat) :
    List (List Char) → List (List Char) → List (List Char)
  | [], _ => []
  | p :: ps, buf =>
    let w := pyWords p
    if maxW ≤ w.length then
      joinWords (w.take maxW) :: join_parasGoNF minW maxW ps []
    else
      let buf' := buf ++ w
      if minW ≤ buf'.length then
        joinWords (buf'.take maxW) :: join_parasGoNF minW maxW ps (buf'.drop maxW)
      else
        join_parasGoNF minW maxW ps buf'

/-- The accumulator state left after the loop of join_paras. -/
def join_parasBuf (minW maxW : Nat) :
    List (List Char) → List (List Char) → List (List Char)
  | [], buf => buf
  | p :: ps, buf =>
    let w := pyWords p
    if maxW ≤ w.length then join_parasBuf minW maxW ps []
    else
      let buf' := buf ++ w
      if minW ≤ buf'.length then join_parasBuf minW maxW ps (buf'.drop maxW)
      else join_parasBuf minW maxW ps buf'

theorem join_parasGo_bounds (minW maxW : Nat) (hmm : minW ≤ maxW) :
    ∀ (ps : List (List Char)) (buf : List (List Char)),
      (∀ w ∈ buf, IsToken w) → buf.length < minW →
      ∀ c ∈ join_parasGo minW maxW ps buf,
        minW ≤ wordCount c ∧ wordCount c ≤ maxW := by
  intro ps
  induction ps with
  | nil =>
    intro buf htok hlen c hc
    simp only [join_parasGo] at hc
    rw [if_neg (by omega)] at hc
    simp at hc
  | cons p ps ih =>
    intro buf htok hlen c hc
    simp only [join_parasGo] at hc
    by_cases hov : maxW ≤ (pyWords p).length
    · rw [if_pos hov, if_neg (by omega)] at hc
      rw [List.nil_append, List.mem_cons] at hc
      rcases hc with hc | hc
      · subst hc
        have ht : ∀ w ∈ (pyWords p).take maxW, IsToken w :=
          fun w hw => pyWords_tokens p w (List.take_subset _ _ hw)
        rw [wordCount_joinWords _ ht, List.length_take]
        omega
      · exact ih [] (by simp) (by simp only [List.length_nil]; omega) c hc
    · rw [if_neg hov] at hc
      have htok' : ∀ w ∈ buf ++ pyWords p, IsToken w := by
        intro w hw
        rcases List.mem_append.mp hw with hw | hw
        · exact htok w hw
        · exact pyWords_tokens p w hw
      by_cases hemit : minW ≤ (buf ++ pyWords p).length
      · rw [if_pos hemit, List.mem_cons] at hc
        rcases hc with hc | hc
        · subst hc
          have ht : ∀ w ∈ (buf ++ pyWords p).take maxW, IsToken w :=
            fun w hw => htok' w (List.take_subset _ _ hw)
          rw [wordCount_joinWords _ ht, List.length_take]
          omega
        · refine ih _ (fun w hw => htok' w (List.drop_subset _ _ hw)) ?_ c hc
          rw [List.length_drop]
          rw [List.length_append] at hemit ⊢
          omega
      · rw [if_neg hemit] at hc
        exact ih _ htok' (by omega) c hc

theorem join_parasGo_oversized_mem (minW maxW : Nat) (p : List Char)
    (hov : maxW ≤ (pyWords p).length) :
    ∀ (pre post : List (List Char)) (buf : List (List Char)),
      joinWords ((pyWords p).take maxW) ∈
        join_parasGo minW maxW (pre ++ p :: post) buf := by
  intro pre
  induction pre with
  | nil =>
    intro post buf
    simp only [List.nil_append, join_parasGo]
    rw [if_pos hov]
    exact List.mem_append_right _ (List.mem_cons_self _ _)
  | cons q pre' ih =>
    intro post buf
    simp only [List.cons_append, join_parasGo]
    by_cases h1 : maxW ≤ (pyWords q).length
    · rw [if_pos h1]
      exact List.mem_append_right _ (List.mem_cons_of_mem _ (ih post []))
    · rw [if_neg h1]
      by_cases h2 : minW ≤ (buf ++ pyWords q).length
      · rw [if_pos h2]
        exact List.mem_cons_of_mem _ (ih post _)
      · rw [if_neg h2]
        exact ih post _

theorem join_parasGo_truncate (minW maxW : Nat) (p p' : List Char)
    (hp' : pyWords p' = (pyWords p).take maxW)
    (hov : maxW ≤ (pyWords p).length) :
    ∀ (pre post : List (List Char)) (buf : List (List Char)),
      join_parasGo minW maxW (pre ++ p :: post) buf =
      join_parasGo minW maxW (pre ++ p' :: post) buf := by
  intro pre
  induction pre with
  | nil =>
    intro post buf
    simp only [List.nil_append, join_parasGo]
    have hov' : maxW ≤ (pyWords p').length := by
      rw [hp', List.length_take]
      omega
    rw [if_pos hov, if_pos hov', hp', List.take_take, min_self]
  | cons q pre' ih =>
    intro post buf
    simp only [List.cons_append, join_parasGo]
    by_cases h1 : maxW ≤ (pyWords q).length
    · rw [if_pos h1, if_pos h1]
      simp only [List.append_eq]
      rw [ih post []]
    · rw [if_neg h1, if_neg h1]
      by_cases h2 : minW ≤ (buf ++ pyWords q).length
      · rw [if_pos h2, if_pos h2]
        simp only [List.append_eq]
        rw [ih post ((buf ++ pyWords q).drop maxW)]
      · rw [if_neg h2, if_neg h2]
        simp only [List.append_eq]
        rw [ih post (buf ++ pyWords q)]

/-- C3: every chunk emitted by join_paras has a word count in
    [MIN_CHUNK_WORDS, MAX_CHUNK_WORDS] (in particular all chunks but the last
    do); a paragraph of at least MAX_CHUNK_WORDS words contributes the chunk
    made of exactly its first MAX_CHUNK_WORDS words, and the run is identical
    to the run where that paragraph is replaced by its first MAX_CHUNK_WORDS
    words, so the truncated remainder reaches no chunk. -/
theorem join_paras_chunk_bounds (paras pre post : List (List Char))
    (p : List Char) (hp : MAX_CHUNK_WORDS ≤ wordCount p) :
    (∀ c ∈ join_paras paras,
      MIN_CHUNK_WORDS ≤ wordCount c ∧ wordCount c ≤ MAX_CHUNK_WORDS) ∧
    joinWords ((pyWords p).take MAX_CHUNK_WORDS) ∈
      join_paras (pre ++ p :: post) ∧
    join_paras (pre ++ p :: post) =
      join_paras (pre ++ joinWords ((pyWords p).take MAX_CHUNK_WORDS) :: post) := by
  refine ⟨?_, ?_, ?_⟩
  · exact join_parasGo_bounds MIN_CHUNK_WORDS MAX_CHUNK_WORDS (by decide)
      paras [] (by simp) (by decide)
  · exact join_parasGo_oversized_mem MIN_CHUNK_WORDS MAX_CHUNK_WORDS p hp
      pre post []
  · exact join_parasGo_truncate MIN_CHUNK_WORDS MAX_CHUNK_WORDS p _
      (pyWords_joinWords _
        (fun w hw => pyWords_tokens p w (List.take_subset _ _ hw)))
      hp pre post []

/-- Witness for C3 at a single 420-word paragraph. -/
theorem join_paras_chunk_bounds_witness :
    MAX_CHUNK_WORDS ≤ wordCount (joinWords (List.replicate 420 ['a'])) ∧
    joinWords ((pyWords (joinWords (List.replicate 420 ['a']))).take
      MAX_CHUNK_WORDS) ∈
      join_paras ([] ++ joinWords (List.replicate 420 ['a']) :: []) := by
  have h : MAX_CHUNK_WORDS ≤ wordCount (joinWords (List.replicate 420 ['a'])) := by
    rw [wordCount_replicate]
    decide
  exact ⟨h, (join_paras_chunk_bounds [] [] []
    (joinWords (List.replicate 420 ['a'])) h).2.1⟩

/-- C6: with chunk bounds 150 and 200, two paragraphs of 90 words each produce
    exactly one chunk that holds all 180 words, so nothing is left in the
    accumulator. -/
theorem join_paras_scenario_A (p1 p2 : List Char)
    (h1 : wordCount p1 = 90) (h2 : wordCount p2 = 90) :
    join_parasGo 150 200 [p1, p2] [] =
      [joinWords (pyWords p1 ++ pyWords p2)] ∧
    wordCount (joinWords (pyWords p1 ++ pyWords p2)) = 180 ∧
    join_parasBuf 150 200 [p1, p2] [] = [] := by
  have e1 : (pyWords p1).length = 90 := h1
  have e2 : (pyWords p2).length = 90 := h2
  have htok : ∀ w ∈ pyWords p1 ++ pyWords p2, IsToken w := by
    intro w hw
    rcases List.mem_append.mp hw with hw | hw
    · exact pyWords_tokens p1 w hw
    · exact pyWords_tokens p2 w hw
  refine ⟨?_, ?_, ?_⟩
  · simp only [join_parasGo]
    rw [if_neg (by omega), List.nil_append,
      if_neg (by rw [e1]; omega),
      if_neg (by omega),
      if_pos (by rw [List.length_append, e1, e2]; omega),
      List.take_of_length_le (by rw [List.length_append, e1, e2]; omega),
      List.drop_eq_nil_of_le (by rw [List.length_append, e1, e2]; omega),
      if_neg (by simp)]
  · rw [wordCount_joinWords _ htok, List.length_append, e1, e2]
  · simp only [join_parasBuf]
    rw [if_neg (by omega), List.nil_append,
      if_neg (by rw [e1]; omega),
      if_neg (by omega),
      if_pos (by rw [List.length_append, e1, e2]; omega)]
    exact List.drop_eq_nil_of_le
      (by rw [List.length_append, e1, e2]; omega)

/-- Witness for C6 at two concrete 90-word paragraphs. -/
theorem join_paras_scenario_A_witness :
    wordCount (joinWords (List.replicate 90 ['a'])) = 90 ∧
    (join_parasGo 150 200 [joinWords (List.replicate 90 ['a']),
        joinWords (List.replicate 90 ['a'])] [] =
      [joinWords (pyWords (joinWords (List.replicate 90 ['a'])) ++
        pyWords (joinWords (List.replicate 90 ['a'])))] ∧
    wordCount (joinWords (pyWords (joinWords (List.replicate 90 ['a'])) ++
      pyWords (joinWords (List.replicate 90 ['a'])))) = 180 ∧
    join_parasBuf 150 200 [joinWords (List.replicate 90 ['a']),
      joinWords (List.replicate 90 ['a'])] [] = []) :=
  ⟨wordCount_replicate 90,
    join_paras_scenario_A _ _ (wordCount_replicate 90) (wordCount_replicate 90)⟩

theorem join_parasBuf_lt (minW maxW : Nat) :
    ∀ (ps : List (List Char)) (buf : List (List Char)),
      buf.length < minW →
      (join_parasBuf minW maxW ps buf).length < minW := by
  intro ps
  induction ps with
  | nil => intro buf h; simpa [join_parasBuf] using h
  | cons p ps ih =>
    intro buf h
    simp only [join_parasBuf]
    by_cases hov : maxW ≤ (pyWords p).length
    · rw [if_pos hov]
      exact ih [] (by simp only [List.length_nil]; omega)
    · rw [if_neg hov]
      by_cases hemit : minW ≤ (buf ++ pyWords p).length
      · rw [if_pos hemit]
        refine ih _ ?_
        rw [List.length_drop, List.length_append]
        rw [List.length_append] at hemit
        omega
      · rw [if_neg hemit]
        exact ih _ (by omega)

theorem join_parasGo_eq_NF (minW maxW : Nat) :
    ∀ (ps : List (List Char)) (buf : List (List Char)),
      buf.length < minW →
      join_parasGo minW maxW ps buf = join_parasGoNF minW maxW ps buf := by
  intro ps
  induction ps with
  | nil =>
    intro buf h
    simp only [join_parasGo, join_parasGoNF]
    rw [if_neg (by omega)]
  | cons p ps ih =>
    intro buf h
    simp only [join_parasGo, join_parasGoNF]
    by_cases hov : maxW ≤ (pyWords p).length
    · rw [if_pos hov, if_pos hov, if_neg (by omega), List.nil_append,
        ih [] (by simp only [List.length_nil]; omega)]
    · rw [if_neg hov, if_neg hov]
      by_cases hemit : minW ≤ (buf ++ pyWords p).length
      · rw [if_pos hemit, if_pos hemit, ih _ (by
          rw [List.length_drop, List.length_append]
          rw [List.length_append] at hemit
          omega)]
      · rw [if_neg hemit, if_neg hemit, ih _ (by omega)]

/-- C10: if the accumulator holds fewer than MIN_CHUNK_WORDS words at the
    start of the loop (as it does on entry, and hence, by this very statement
    applied to each suffix of the paragraph list, at every iteration), it
    still does after the loop; the two flush branches are never taken (the
    run equals the run of the branch-free variant); and every emitted chunk,
    the last included, has a word count in [MIN_CHUNK_WORDS, MAX_CHUNK_WORDS]. -/
theorem join_paras_invariant (paras : List (List Char))
    (buf : List (List Char)) (hb : buf.length < MIN_CHUNK_WORDS) :
    (join_parasBuf MIN_CHUNK_WORDS MAX_CHUNK_WORDS paras buf).length <
      MIN_CHUNK_WORDS ∧
    join_parasGo MIN_CHUNK_WORDS MAX_CHUNK_WORDS paras buf =
      join_parasGoNF MIN_CHUNK_WORDS MAX_CHUNK_WORDS paras buf ∧
    ∀ c ∈ join_paras paras,
      MIN_CHUNK_WORDS ≤ wordCount c ∧ wordCount c ≤ MAX_CHUNK_WORDS :=
  ⟨join_parasBuf_lt MIN_CHUNK_WORDS MAX_CHUNK_WORDS paras buf hb,
   join_parasGo_eq_NF MIN_CHUNK_WORDS MAX_CHUNK_WORDS paras buf hb,
   join_parasGo_bounds MIN_CHUNK_WORDS MAX_CHUNK_WORDS (by decide)
     paras [] (by simp) (by decide)⟩

/-- Witness for C10 at a concrete paragraph list and empty accumulator. -/
theorem join_paras_invariant_witness :
    ([] : List (List Char)).length < MIN_CHUNK_WORDS ∧
    (join_parasBuf MIN_CHUNK_WORDS MAX_CHUNK_WORDS
        [joinWords (List.replicate 420 ['a'])] []).length < MIN_CHUNK_WORDS :=
  ⟨by decide,
   (join_paras_invariant [joinWords (List.replicate 420 ['a'])] []
     (by decide)).1⟩

/-! Characterizations used for the normalizer: longest newline run and
    absence of adjacent horizontal whitespace. -/

/-- Longest run of consecutive newline characters, given k newlines pending
    immediately before the list. -/
def maxRunNl : List Char → Nat → Nat
  | [], k => k
  | c :: r, k => if c = '\n' then maxRunNl r (k + 1) else max k (maxRunNl r 0)

/-- No two adjacent horizontal whitespace characters anywhere in the list. -/
def noAdjHWs : List Char → Bool
  | a :: b :: r => (!(isHWs a && isHWs b)) && noAdjHWs (b :: r)
  | _ => true

theorem le_maxRunNl : ∀ (l : List Char) (k : Nat), k ≤ maxRunNl l k := by
  intro l
  induction l with
  | nil => intro k; exact le_refl k
  | cons c r ih =>
    intro k
    simp only [maxRunNl]
    by_cases h : c = '\n'
    · rw [if_pos h]; exact le_trans (Nat.le_succ k) (ih (k + 1))
    · rw [if_neg h]; exact le_max_left _ _

theorem maxRunNl_mono : ∀ (l : List Char) (k k' : Nat), k ≤ k' →
    maxRunNl l k ≤ maxRunNl l k' := by
  intro l
  induction l with
  | nil => intro k k' h; exact h
  | cons c r ih =>
    intro k k' h
    simp only [maxRunNl]
    by_cases hc : c = '\n'
    · rw [if_pos hc, if_pos hc]; exact ih _ _ (by omega)
    · rw [if_neg hc, if_neg hc]; exact max_le_max h (le_refl _)

theorem maxRunNl_append_left (l : List Char) :
    ∀ (u : List Char) (k : Nat), maxRunNl l 0 ≤ maxRunNl (u ++ l) k := by
  intro u
  induction u with
  | nil => intro k; exact maxRunNl_mono l 0 k (Nat.zero_le k)
  | cons c u' ih =>
    intro k
    simp only [List.cons_append, maxRunNl]
    by_cases hc : c = '\n'
    · rw [if_pos hc]; exact ih (k + 1)
    · rw [if_neg hc]; exact le_trans (ih 0) (le_max_right _ _)

theorem maxRunNl_append_right : ∀ (d v : List Char) (k : Nat),
    maxRunNl d k ≤ maxRunNl (d ++ v) k := by
  intro d
  induction d with
  | nil => intro v k; exact le_maxRunNl v k
  | cons c d' ih =>
    intro v k
    simp only [List.cons_append, maxRunNl]
    by_cases hc : c = '\n'
    · rw [if_pos hc, if_pos hc]; exact ih v (k + 1)
    · rw [if_neg hc, if_neg hc]; exact max_le_max (le_refl _) (ih v 0)

theorem maxRunNl_le_of_split (l d u v : List Char) (h : l = u ++ d ++ v) :
    maxRunNl d 0 ≤ maxRunNl l 0 := by
  subst h
  rw [List.append_assoc]
  exact le_trans (maxRunNl_append_right d v 0)
    (maxRunNl_append_left (d ++ v) u 0)

theorem maxRunNl_triple : ∀ (a : List Char) (b : List Char) (k : Nat),
    3 ≤ maxRunNl (a ++ '\n' :: '\n' :: '\n' :: b) k := by
  intro a
  induction a with
  | nil =>
    intro b k
    show 3 ≤ maxRunNl ('\n' :: '\n' :: '\n' :: b) k
    simp only [maxRunNl, if_true]
    exact le_trans (by omega) (le_maxRunNl b (k + 1 + 1 + 1))
  | cons c a' ih =>
    intro b k
    simp only [List.cons_append, maxRunNl]
    by_cases hc : c = '\n'
    · rw [if_pos hc]; exact ih b (k + 1)
    · rw [if_neg hc]; exact le_trans (ih b 0) (le_max_right _ _)

theorem noTriple_of_maxRunNl (l : List Char) (h : maxRunNl l 0 ≤ 2) :
    ∀ a b, l ≠ a ++ '\n' :: '\n' :: '\n' :: b := by
  intro a b heq
  have h3 := maxRunNl_triple a b 0
  rw [← heq] at h3
  omega

theorem noAdjHWs_tail (a : Char) (l : List Char)
    (h : noAdjHWs (a :: l) = true) : noAdjHWs l = true := by
  cases l with
  | nil => rfl
  | cons b r =>
    have e : noAdjHWs (a :: b :: r) =
        ((!(isHWs a && isHWs b)) && noAdjHWs (b :: r)) := rfl
    rw [e, Bool.and_eq_true] at h
    exact h.2

theorem noAdjHWs_cons_iff (c : Char) (l : List Char) :
    noAdjHWs (c :: l) = true ↔
      (noAdjHWs l = true ∧
        ∀ x, l.head? = some x → (isHWs c && isHWs x) = false) := by
  cases l with
  | nil =>
    constructor
    · intro _; exact ⟨rfl, fun x hx => by cases hx⟩
    · intro _; rfl
  | cons b r =>
    have e : noAdjHWs (c :: b :: r) =
        ((!(isHWs c && isHWs b)) && noAdjHWs (b :: r)) := rfl
    rw [e, Bool.and_eq_true, Bool.not_eq_true']
    constructor
    · rintro ⟨h1, h2⟩
      refine ⟨h2, ?_⟩
      intro x hx
      have hb : b = x := Option.some_inj.mp hx
      subst hb
      exact h1
    · rintro ⟨h1, h2⟩
      exact ⟨h2 b rfl, h1⟩

theorem noAdjHWs_append_right (d v : List Char)
    (h : noAdjHWs (d ++ v) = true) : noAdjHWs d = true := by
  induction d with
  | nil => rfl
  | cons c d' ih =>
    rw [List.cons_append] at h
    rw [noAdjHWs_cons_iff] at h ⊢
    obtain ⟨h1, h2⟩ := h
    refine ⟨ih h1, ?_⟩
    intro x hx
    apply h2
    cases d' with
    | nil => cases hx
    | cons y r => rw [List.cons_append]; exact hx

theorem noAdjHWs_append_left (u d : List Char)
    (h : noAdjHWs (u ++ d) = true) : noAdjHWs d = true := by
  induction u with
  | nil => exact h
  | cons c u' ih =>
    rw [List.cons_append] at h
    exact ih (noAdjHWs_tail _ _ h)

theorem noAdjHWs_replicate_nl (m : Nat) (l : List Char)
    (h : noAdjHWs l = true) :
    noAdjHWs (List.replicate m '\n' ++ l) = true := by
  induction m with
  | zero => simpa using h
  | succ m ih =>
    rw [List.replicate_succ, List.cons_append, noAdjHWs_cons_iff]
    refine ⟨ih, ?_⟩
    intro x _
    rw [show isHWs '\n' = false from rfl, Bool.false_and]

/-! Facts about the passes of the normalizer. -/

theorem collapseHWsGo_cons_hws_true (d : Char) (rest : List Char)
    (hd : isHWs d = true) :
    collapseHWsGo (d :: rest) true = collapseHWsGo rest true := by
  simp [collapseHWsGo, hd]

theorem collapseHWsGo_cons_hws_false (d : Char) (rest : List Char)
    (hd : isHWs d = true) :
    collapseHWsGo (d :: rest) false = ' ' :: collapseHWsGo rest true := by
  simp [collapseHWsGo, hd]

theorem collapseHWsGo_cons_not (d : Char) (rest : List Char) (b : Bool)
    (hd : isHWs d = false) :
    collapseHWsGo (d :: rest) b = d :: collapseHWsGo rest false := by
  simp [collapseHWsGo, hd]

theorem collapseNlGo_cons_nl (rest : List Char) (k : Nat) :
    collapseNlGo ('\n' :: rest) k = collapseNlGo rest (k + 1) := by
  simp [collapseNlGo]

theorem collapseNlGo_cons_not (d : Char) (rest : List Char) (k : Nat)
    (hd : d ≠ '\n') :
    collapseNlGo (d :: rest) k = emitNl k ++ d :: collapseNlGo rest 0 := by
  simp [collapseNlGo, hd]

theorem emitNl_eq (k : Nat) : emitNl k = List.replicate (min k 2) '\n' := by
  rw [emitNl]
  congr 1
  split_ifs with h <;> omega

theorem mem_replaceCR (l : List Char) : ∀ c ∈ replaceCR l, c ≠ '\r' := by
  intro c hc
  rw [replaceCR, List.mem_map] at hc
  obtain ⟨d, _, hd⟩ := hc
  by_cases h : d = '\r'
  · rw [if_pos h] at hd; subst hd; decide
  · rw [if_neg h] at hd; subst hd; exact h

theorem mem_collapseHWsGo : ∀ (l : List Char) (b : Bool) (c : Char),
    c ∈ collapseHWsGo l b → c = ' ' ∨ c ∈ l := by
  intro l
  induction l with
  | nil => intro b c hc; simp [collapseHWsGo] at hc
  | cons d rest ih =>
    intro b c hc
    cases hiw : isHWs d with
    | true =>
      cases b with
      | true =>
        rw [collapseHWsGo_cons_hws_true d rest hiw] at hc
        rcases ih true c hc with h | h
        · exact Or.inl h
        · exact Or.inr (List.mem_cons_of_mem _ h)
      | false =>
        rw [collapseHWsGo_cons_hws_false d rest hiw] at hc
        rcases List.mem_cons.mp hc with h | h
        · exact Or.inl h
        · rcases ih true c h with h | h
          · exact Or.inl h
          · exact Or.inr (List.mem_cons_of_mem _ h)
    | false =>
      rw [collapseHWsGo_cons_not d rest b hiw] at hc
      rcases List.mem_cons.mp hc with h | h
      · exact Or.inr (by simp [h])
      · rcases ih false c h with h | h
        · exact Or.inl h
        · exact Or.inr (List.mem_cons_of_mem _ h)

theorem mem_collapseNlGo : ∀ (l : List Char) (k : Nat) (c : Char),
    c ∈ collapseNlGo l k → c = '\n' ∨ c ∈ l := by
  intro l
  induction l with
  | nil =>
    intro k c hc
    rw [show collapseNlGo [] k = emitNl k from rfl, emitNl] at hc
    exact Or.inl (List.eq_of_mem_replicate hc)
  | cons d rest ih =>
    intro k c hc
    by_cases hd : d = '\n'
    · subst hd
      rw [collapseNlGo_cons_nl] at hc
      rcases ih (k + 1) c hc with h | h
      · exact Or.inl h
      · exact Or.inr (List.mem_cons_of_mem _ h)
    · rw [collapseNlGo_cons_not d rest k hd] at hc
      rcases List.mem_append.mp hc with h | h
      · rw [emitNl] at h
        exact Or.inl (List.eq_of_mem_replicate h)
      · rcases List.mem_cons.mp h with h | h
        · exact Or.inr (by simp [h])
        · rcases ih 0 c h with h | h
          · exact Or.inl h
          · exact Or.inr (List.mem_cons_of_mem _ h)

theorem dropWhile_eq_strip_append (l : List Char) :
    l.dropWhile pyWsChar =
      pyStrip l ++
        ((l.dropWhile pyWsChar).reverse.takeWhile pyWsChar).reverse := by
  rw [pyStrip, ← List.reverse_append, List.takeWhile_append_dropWhile,
    List.reverse_reverse]

theorem pyStrip_decomp (l : List Char) : ∃ u v, l = u ++ pyStrip l ++ v := by
  refine ⟨l.takeWhile pyWsChar,
    ((l.dropWhile pyWsChar).reverse.takeWhile pyWsChar).reverse, ?_⟩
  conv_lhs => rw [← List.takeWhile_append_dropWhile (p := pyWsChar) (l := l),
    dropWhile_eq_strip_append l]
  rw [List.append_assoc]

theorem mem_pyStrip (l : List Char) (c : Char) (hc : c ∈ pyStrip l) :
    c ∈ l := by
  obtain ⟨u, v, huv⟩ := pyStrip_decomp l
  rw [huv]
  exact List.mem_append_left _ (List.mem_append_right _ hc)

theorem head_dropWhile_false : ∀ (l : List Char) (c : Char),
    (l.dropWhile pyWsChar).head? = some c → pyWsChar c = false := by
  intro l
  induction l with
  | nil => intro c hc; cases hc
  | cons d rest ih =>
    intro c hc
    rw [List.dropWhile_cons] at hc
    by_cases hd : pyWsChar d = true
    · rw [if_pos hd] at hc
      exact ih c hc
    · rw [if_neg hd] at hc
      have : d = c := Option.some_inj.mp hc
      subst this
      simpa using hd

theorem pyStrip_head? (l : List Char) (c : Char)
    (h : (pyStrip l).head? = some c) : pyWsChar c = false := by
  have hd := dropWhile_eq_strip_append l
  cases hps : pyStrip l with
  | nil => rw [hps] at h; cases h
  | cons x t =>
    rw [hps] at h hd
    have hx : x = c := Option.some_inj.mp h
    subst hx
    apply head_dropWhile_false l x
    rw [hd]
    rfl

theorem pyStrip_getLast? (l : List Char) (c : Char)
    (h : (pyStrip l).getLast? = some c) : pyWsChar c = false := by
  have e : pyStrip l = List.rdropWhile pyWsChar (List.dropWhile pyWsChar l) :=
    rfl
  rw [e] at h
  have hne : List.rdropWhile pyWsChar (List.dropWhile pyWsChar l) ≠ [] := by
    intro h0; rw [h0] at h; cases h
  have hlast := List.rdropWhile_last_not pyWsChar _ hne
  rw [List.getLast?_eq_getLast_of_ne_nil hne] at h
  have hc := Option.some_inj.mp h
  rw [hc] at hlast
  simpa using hlast

theorem pyStrip_idem (l : List Char) : pyStrip (pyStrip l) = pyStrip l :=
  pyStrip_eq_self _ (pyStrip_head? l) (pyStrip_getLast? l)

theorem collapseHWsGo_no_tab : ∀ (l : List Char) (b : Bool) (c : Char),
    c ∈ collapseHWsGo l b → c ≠ '\t' := by
  intro l
  induction l with
  | nil => intro b c hc; simp [collapseHWsGo] at hc
  | cons d rest ih =>
    intro b c hc
    cases hiw : isHWs d with
    | true =>
      cases b with
      | true =>
        rw [collapseHWsGo_cons_hws_true d rest hiw] at hc
        exact ih true c hc
      | false =>
        rw [collapseHWsGo_cons_hws_false d rest hiw] at hc
        rcases List.mem_cons.mp hc with h | h
        · subst h; decide
        · exact ih true c h
    | false =>
      rw [collapseHWsGo_cons_not d rest b hiw] at hc
      rcases List.mem_cons.mp hc with h | h
      · subst h
        intro he
        rw [he] at hiw
        exact absurd hiw (by decide)
      · exact ih false c h

theorem collapseHWsGo_true_head : ∀ (l : List Char) (c : Char),
    (collapseHWsGo l true).head? = some c → isHWs c = false := by
  intro l
  induction l with
  | nil => intro c hc; cases hc
  | cons d rest ih =>
    intro c hc
    cases hiw : isHWs d with
    | true =>
      rw [collapseHWsGo_cons_hws_true d rest hiw] at hc
      exact ih c hc
    | false =>
      rw [collapseHWsGo_cons_not d rest true hiw] at hc
      have : d = c := Option.some_inj.mp hc
      subst this
      exact hiw

theorem collapseHWsGo_noAdj : ∀ (l : List Char) (b : Bool),
    noAdjHWs (collapseHWsGo l b) = true := by
  intro l
  induction l with
  | nil => intro b; rfl
  | cons d rest ih =>
    intro b
    cases hiw : isHWs d with
    | false =>
      rw [collapseHWsGo_cons_not d rest b hiw, noAdjHWs_cons_iff]
      refine ⟨ih false, ?_⟩
      intro x _
      rw [hiw, Bool.false_and]
    | true =>
      cases b with
      | true =>
        rw [collapseHWsGo_cons_hws_true d rest hiw]
        exact ih true
      | false =>
        rw [collapseHWsGo_cons_hws_false d rest hiw, noAdjHWs_cons_iff]
        refine ⟨ih true, ?_⟩
        intro x hx
        rw [collapseHWsGo_true_head rest x hx, Bool.and_false]

theorem collapseHWsGo_eq_self : ∀ (l : List Char),
    (∀ c ∈ l, c ≠ '\t') → noAdjHWs l = true →
    (collapseHWsGo l false = l ∧
      ((∀ x, l.head? = some x → isHWs x = false) →
        collapseHWsGo l true = l)) := by
  intro l
  induction l with
  | nil => intro _ _; exact ⟨rfl, fun _ => rfl⟩
  | cons d rest ih =>
    intro htab hadj
    have htab' : ∀ c ∈ rest, c ≠ '\t' :=
      fun c hc => htab c (List.mem_cons_of_mem _ hc)
    have hadj' := noAdjHWs_tail _ _ hadj
    obtain ⟨ih1, ih2⟩ := ih htab' hadj'
    cases hiw : isHWs d with
    | false =>
      constructor
      · rw [collapseHWsGo_cons_not d rest false hiw, ih1]
      · intro _
        rw [collapseHWsGo_cons_not d rest true hiw, ih1]
    | true =>
      have hd : d = ' ' := by
        have hnt := htab d (by simp)
        rw [isHWs, Bool.or_eq_true] at hiw
        rcases hiw with h | h
        · exact beq_iff_eq.mp h
        · exact absurd (beq_iff_eq.mp h) hnt
      constructor
      · rw [collapseHWsGo_cons_hws_false d rest hiw, hd]
        congr 1
        apply ih2
        intro x hx
        have h2 := ((noAdjHWs_cons_iff d rest).mp hadj).2 x hx
        rw [hiw, Bool.true_and] at h2
        exact h2
      · intro hhead
        have := hhead d rfl
        rw [hiw] at this
        cases this

theorem maxRunNl_replicate_nl : ∀ (m k : Nat),
    maxRunNl (List.replicate m '\n') k = k + m := by
  intro m
  induction m with
  | zero => intro k; rfl
  | succ m ih =>
    intro k
    rw [List.replicate_succ]
    rw [show maxRunNl ('\n' :: List.replicate m '\n') k =
      maxRunNl (List.replicate m '\n') (k + 1) by simp [maxRunNl]]
    rw [ih (k + 1)]
    omega

theorem maxRunNl_repNl_append (m : Nat) (c : Char) (t : List Char)
    (hc : c ≠ '\n') : ∀ j, maxRunNl (List.replicate m '\n' ++ c :: t) j =
      max (j + m) (maxRunNl t 0) := by
  induction m with
  | zero =>
    intro j
    rw [List.replicate_zero, List.nil_append]
    rw [show maxRunNl (c :: t) j = max j (maxRunNl t 0) by
      simp [maxRunNl, hc]]
    rw [Nat.add_zero]
  | succ m ih =>
    intro j
    rw [List.replicate_succ, List.cons_append]
    rw [show maxRunNl ('\n' :: (List.replicate m '\n' ++ c :: t)) j =
      maxRunNl (List.replicate m '\n' ++ c :: t) (j + 1) by simp [maxRunNl]]
    rw [ih (j + 1)]
    congr 1
    omega

theorem collapseNlGo_maxRun : ∀ (l : List Char) (k : Nat),
    maxRunNl (collapseNlGo l k) 0 ≤ 2 := by
  intro l
  induction l with
  | nil =>
    intro k
    rw [show collapseNlGo [] k = emitNl k from rfl, emitNl_eq]
    have := maxRunNl_replicate_nl (min k 2) 0
    omega
  | cons d rest ih =>
    intro k
    by_cases hd : d = '\n'
    · subst hd
      rw [collapseNlGo_cons_nl]
      exact ih (k + 1)
    · rw [collapseNlGo_cons_not d rest k hd, emitNl_eq,
        maxRunNl_repNl_append (min k 2) d (collapseNlGo rest 0) hd 0]
      exact max_le (by omega) (ih 0)

theorem collapseNlGo_head_of_pos : ∀ (l : List Char) (k : Nat), 1 ≤ k →
    (collapseNlGo l k).head? = some '\n' := by
  intro l
  induction l with
  | nil =>
    intro k hk
    rw [show collapseNlGo [] k = emitNl k from rfl, emitNl_eq]
    have : min k 2 ≠ 0 := by omega
    obtain ⟨j, hj⟩ := Nat.exists_eq_succ_of_ne_zero this
    rw [hj, List.replicate_succ]
    rfl
  | cons d rest ih =>
    intro k hk
    by_cases hd : d = '\n'
    · subst hd
      rw [collapseNlGo_cons_nl]
      exact ih (k + 1) (by omega)
    · rw [collapseNlGo_cons_not d rest k hd, emitNl_eq]
      have : min k 2 ≠ 0 := by omega
      obtain ⟨j, hj⟩ := Nat.exists_eq_succ_of_ne_zero this
      rw [hj, List.replicate_succ, List.cons_append]
      rfl

theorem collapseNlGo_zero_head? (l : List Char) :
    (collapseNlGo l 0).head? = l.head? := by
  cases l with
  | nil => rfl
  | cons d rest =>
    by_cases hd : d = '\n'
    · subst hd
      rw [collapseNlGo_cons_nl]
      exact collapseNlGo_head_of_pos rest 1 (by omega)
    · rw [collapseNlGo_cons_not d rest 0 hd]
      rfl

theorem collapseNlGo_noAdj : ∀ (l : List Char) (k : Nat),
    noAdjHWs l = true → noAdjHWs (collapseNlGo l k) = true := by
  intro l
  induction l with
  | nil =>
    intro k _
    rw [show collapseNlGo [] k = emitNl k from rfl, emitNl_eq]
    have h := noAdjHWs_replicate_nl (min k 2) [] rfl
    rwa [List.append_nil] at h
  | cons d rest ih =>
    intro k h
    by_cases hd : d = '\n'
    · subst hd
      rw [collapseNlGo_cons_nl]
      exact ih (k + 1) (noAdjHWs_tail _ _ h)
    · rw [collapseNlGo_cons_not d rest k hd, emitNl_eq]
      apply noAdjHWs_replicate_nl
      rw [noAdjHWs_cons_iff]
      refine ⟨ih 0 (noAdjHWs_tail _ _ h), ?_⟩
      intro x hx
      rw [collapseNlGo_zero_head? rest] at hx
      exact ((noAdjHWs_cons_iff d rest).mp h).2 x hx

theorem collapseNlGo_eq_self : ∀ (l : List Char) (k : Nat),
    maxRunNl l k ≤ 2 → collapseNlGo l k = List.replicate k '\n' ++ l := by
  intro l
  induction l with
  | nil =>
    intro k h
    have hk : k ≤ 2 := h
    rw [show collapseNlGo [] k = emitNl k from rfl, emitNl_eq,
      List.append_nil]
    congr 1
    omega
  | cons d rest ih =>
    intro k h
    by_cases hd : d = '\n'
    · subst hd
      rw [show maxRunNl ('\n' :: rest) k = maxRunNl rest (k + 1) by
        simp [maxRunNl]] at h
      rw [collapseNlGo_cons_nl, ih (k + 1) h, List.replicate_succ',
        List.append_assoc, List.singleton_append]
    · rw [show maxRunNl (d :: rest) k = max k (maxRunNl rest 0) by
        simp [maxRunNl, hd]] at h
      rw [collapseNlGo_cons_not d rest k hd, ih 0 (by omega),
        List.replicate_zero, List.nil_append, emitNl_eq]
      congr 2
      omega

theorem replaceCRLF_eq_self : ∀ (l : List Char), (∀ c ∈ l, c ≠ '\r') →
    replaceCRLF l = l := by
  intro l
  induction l with
  | nil => intro _; rfl
  | cons c rest ih =>
    intro h
    cases rest with
    | nil => rfl
    | cons d rest' =>
      have hc : c ≠ '\r' := h c (by simp)
      have e : replaceCRLF (c :: d :: rest') = c :: replaceCRLF (d :: rest') := by
        simp only [replaceCRLF]
        rw [if_neg]
        intro hand
        exact hc hand.1
      rw [e, ih (fun x hx => h x (List.mem_cons_of_mem _ hx))]

theorem replaceCR_eq_self (l : List Char) (h : ∀ c ∈ l, c ≠ '\r') :
    replaceCR l = l := by
  induction l with
  | nil => rfl
  | cons c rest ih =>
    rw [replaceCR, List.map_cons, if_neg (h c (by simp))]
    congr 1
    exact ih (fun x hx => h x (List.mem_cons_of_mem _ hx))

/-- Structural facts about the output of clean_text: no carriage return, no
    tab, no adjacent horizontal whitespace, newline runs of length at most 2,
    and whitespace-free ends. -/
theorem clean_text_facts (s : List Char) :
    (∀ c ∈ clean_text s, c ≠ '\r') ∧
    (∀ c ∈ clean_text s, c ≠ '\t') ∧
    noAdjHWs (clean_text s) = true ∧
    maxRunNl (clean_text s) 0 ≤ 2 ∧
    (∀ c, (clean_text s).head? = some c → pyWsChar c = false) ∧
    (∀ c, (clean_text s).getLast? = some c → pyWsChar c = false) := by
  have hct : clean_text s =
      pyStrip (collapseNl (collapseHWs (replaceCR (replaceCRLF s)))) := rfl
  set t1 := replaceCR (replaceCRLF s) with ht1
  set t2 := collapseHWs t1 with ht2
  set t3 := collapseNl t2 with ht3
  rw [hct]
  have f1 : ∀ c ∈ t1, c ≠ '\r' := mem_replaceCR _
  have f2 : ∀ c ∈ t2, c ≠ '\r' := by
    intro c hc
    rcases mem_collapseHWsGo t1 false c hc with h | h
    · subst h; decide
    · exact f1 c h
  have f3 : ∀ c ∈ t3, c ≠ '\r' := by
    intro c hc
    rcases mem_collapseNlGo t2 0 c hc with h | h
    · subst h; decide
    · exact f2 c h
  have f4 : ∀ c ∈ pyStrip t3, c ≠ '\r' :=
    fun c hc => f3 c (mem_pyStrip t3 c hc)
  have g2 : ∀ c ∈ t2, c ≠ '\t' := collapseHWsGo_no_tab t1 false
  have g3 : ∀ c ∈ t3, c ≠ '\t' := by
    intro c hc
    rcases mem_collapseNlGo t2 0 c hc with h | h
    · subst h; decide
    · exact g2 c h
  have g4 : ∀ c ∈ pyStrip t3, c ≠ '\t' :=
    fun c hc => g3 c (mem_pyStrip t3 c hc)
  have a2 : noAdjHWs t2 = true := collapseHWsGo_noAdj t1 false
  have a3 : noAdjHWs t3 = true := collapseNlGo_noAdj t2 0 a2
  have a4 : noAdjHWs (pyStrip t3) = true := by
    obtain ⟨u, v, huv⟩ := pyStrip_decomp t3
    have h1 : noAdjHWs (u ++ pyStrip t3 ++ v) = true := by
      rw [huv] at a3
      exact a3
    exact noAdjHWs_append_left u _ (noAdjHWs_append_right _ v h1)
  have m3 : maxRunNl t3 0 ≤ 2 := collapseNlGo_maxRun t2 0
  have m4 : maxRunNl (pyStrip t3) 0 ≤ 2 := by
    obtain ⟨u, v, huv⟩ := pyStrip_decomp t3
    exact le_trans (maxRunNl_le_of_split t3 (pyStrip t3) u v huv) m3
  exact ⟨f4, g4, a4, m4, pyStrip_head? t3, pyStrip_getLast? t3⟩

/-- C8: for every input, the output of clean_text contains no carriage-return
    character, no run of three or more consecutive newline characters, and
    has no leading or trailing whitespace. -/
theorem clean_text_normalized (s : List Char) :
    (∀ c ∈ clean_text s, c ≠ '\r') ∧
    (∀ a b, clean_text s ≠ a ++ '\n' :: '\n' :: '\n' :: b) ∧
    (∀ c, (clean_text s).head? = some c → pyWsChar c = false) ∧
    (∀ c, (clean_text s).getLast? = some c → pyWsChar c = false) := by
  obtain ⟨f, -, -, m, s1, s2⟩ := clean_text_facts s
  exact ⟨f, noTriple_of_maxRunNl _ m, s1, s2⟩

/-- Witness for C8 at a one-character input: the head hypothesis is
    discharged concretely. -/
theorem clean_text_normalized_witness :
    (clean_text ['a']).head? = some 'a' ∧ pyWsChar 'a' = false :=
  ⟨by decide, (clean_text_normalized ['a']).2.2.1 'a' (by decide)⟩

/-- C9: clean_text is idempotent: applying it to its own output returns that
    output unchanged. -/
theorem clean_text_idempotent (s : List Char) :
    clean_text (clean_text s) = clean_text s := by
  obtain ⟨f, g, a, m, s1, s2⟩ := clean_text_facts s
  set t := clean_text s with ht
  have e1 : replaceCRLF t = t := replaceCRLF_eq_self t f
  have e2 : replaceCR t = t := replaceCR_eq_self t f
  have e3 : collapseHWs t = t := (collapseHWsGo_eq_self t g a).1
  have e4 : collapseNl t = t := by
    have h := collapseNlGo_eq_self t 0 m
    rw [List.replicate_zero, List.nil_append] at h
    exact h
  show pyStrip (collapseNl (collapseHWs (replaceCR (replaceCRLF t)))) = t
  rw [e1, e2, e3, e4]
  exact pyStrip_eq_self t s1 s2

/-! Facts about the record-building loop of main. -/

theorem recordInner_len_le (tpl : Nat → List Char) :
    ∀ (ps : List (List Char × List Char)) (recs : List TrainRecord),
      recs.length < MAX_RECORDS →
      (recordInner tpl ps recs).length ≤ MAX_RECORDS := by
  intro ps
  induction ps with
  | nil => intro recs h; exact le_of_lt h
  | cons p ps ih =>
    intro recs h
    obtain ⟨inp, out⟩ := p
    simp only [recordInner]
    split_ifs with hb
    · rw [List.length_append, List.length_singleton]
      omega
    · exact ih _ (by omega)

theorem recordLoop_len_le (rand : Nat → Nat → Nat) (tpl : Nat → List Char) :
    ∀ (chunks : List (List Char)) (recs : List TrainRecord),
      recs.length < MAX_RECORDS →
      (recordLoop rand tpl chunks recs).length ≤ MAX_RECORDS := by
  intro chunks
  induction chunks with
  | nil => intro recs h; exact le_of_lt h
  | cons ch rest ih =>
    intro recs h
    simp only [recordLoop]
    split_ifs with hb
    · exact recordInner_len_le tpl _ recs h
    · exact ih _ (by omega)

theorem recordLoop_stop (rand : Nat → Nat → Nat) (tpl : Nat → List Char) :
    ∀ (pre suf : List (List Char)) (recs : List TrainRecord),
      recs.length < MAX_RECORDS →
      MAX_RECORDS ≤ (recordLoop rand tpl pre recs).length →
      recordLoop rand tpl (pre ++ suf) recs = recordLoop rand tpl pre recs := by
  intro pre
  induction pre with
  | nil =>
    intro suf recs h1 h2
    rw [show recordLoop rand tpl [] recs = recs from rfl] at h2
    omega
  | cons ch pre' ih =>
    intro suf recs h1 h2
    have eL : recordLoop rand tpl ((ch :: pre') ++ suf) recs =
        (if MAX_RECORDS ≤ (recordInner tpl (make_pairs rand ch) recs).length
         then recordInner tpl (make_pairs rand ch) recs
         else recordLoop rand tpl (pre' ++ suf)
           (recordInner tpl (make_pairs rand ch) recs)) := by
      simp only [List.cons_append, recordLoop, List.append_eq]
    have eR : recordLoop rand tpl (ch :: pre') recs =
        (if MAX_RECORDS ≤ (recordInner tpl (make_pairs rand ch) recs).length
         then recordInner tpl (make_pairs rand ch) recs
         else recordLoop rand tpl pre'
           (recordInner tpl (make_pairs rand ch) recs)) := by
      simp only [recordLoop]
    rw [eL, eR]
    rw [eR] at h2
    by_cases hb :
        MAX_RECORDS ≤ (recordInner tpl (make_pairs rand ch) recs).length
    · rw [if_pos hb, if_pos hb]
    · rw [if_neg hb, if_neg hb]
      rw [if_neg hb] at h2
      exact ih suf _ (by omega) h2

/-- C5: the record-building loop never produces more than MAX_RECORDS records,
    and once some prefix of the chunk list already yields MAX_RECORDS records
    the remaining chunks are abandoned: the full run equals the prefix run, so
    no further chunk is processed and no further record appended. -/
theorem buildRecords_cap (rand : Nat → Nat → Nat) (tpl : Nat → List Char)
    (chunks : List (List Char)) :
    (buildRecords rand tpl chunks).length ≤ MAX_RECORDS ∧
    ∀ pre suf, chunks = pre ++ suf →
      MAX_RECORDS ≤ (buildRecords rand tpl pre).length →
      buildRecords rand tpl chunks = buildRecords rand tpl pre := by
  constructor
  · exact recordLoop_len_le rand tpl chunks [] (by decide)
  · intro pre suf hps h
    subst hps
    exact recordLoop_stop rand tpl pre suf [] (by decide) h

set_option maxRecDepth 8000 in
/-- Evaluation of make_pairs on a 200-word chunk with the low-end oracle. -/
theorem make_pairs_200_eval :
    make_pairs (fun a _ => a) (joinWords (List.replicate 200 ['a'])) =
      [(joinWords (List.replicate 90 ['a']),
        joinWords (List.replicate 110 ['a']))] := by
  rw [make_pairs_eq]
  rw [if_neg (by rw [wordCount_replicate]; decide),
    if_neg (by rw [cut_maxOf_200]; decide), pyWords_replicate,
    List.drop_replicate, List.take_replicate, List.take_replicate]
  rw [if_neg (by decide)]
  decide

theorem recordInner_single (tpl : Nat → List Char) (inp out : List Char)
    (recs : List TrainRecord) :
    recordInner tpl [(inp, out)] recs =
      recs ++ [⟨tpl recs.length ++ '\n' :: '\n' :: inp, out⟩] := by
  simp only [recordInner]
  split_ifs <;> rfl

theorem recordLoop_replicate_len (tpl : Nat → List Char) :
    ∀ (n : Nat) (recs : List TrainRecord), recs.length < MAX_RECORDS →
    (recordLoop (fun a _ => a) tpl
      (List.replicate n (joinWords (List.replicate 200 ['a']))) recs).length =
      min MAX_RECORDS (recs.length + n) := by
  intro n
  induction n with
  | zero =>
    intro recs h
    rw [List.replicate_zero,
      show recordLoop (fun a _ => a) tpl [] recs = recs from rfl]
    omega
  | succ n ih =>
    intro recs h
    rw [List.replicate_succ]
    simp only [recordLoop, make_pairs_200_eval, recordInner_single]
    split_ifs with hb
    · rw [List.length_append, List.length_singleton] at hb ⊢
      omega
    · rw [ih _ (by omega), List.length_append, List.length_singleton]
      rw [List.length_append, List.length_singleton] at hb
      omega

/-- Witness for C5: a prefix of 1200 productive chunks reaches the cap and the
    extra chunk after it changes nothing. -/
theorem buildRecords_cap_witness :
    MAX_RECORDS ≤ (buildRecords (fun a _ => a) (fun _ => [])
      (List.replicate 1200 (joinWords (List.replicate 200 ['a'])))).length ∧
    buildRecords (fun a _ => a) (fun _ => [])
        (List.replicate 1200 (joinWords (List.replicate 200 ['a'])) ++
          [joinWords (List.replicate 200 ['a'])]) =
      buildRecords (fun a _ => a) (fun _ => [])
        (List.replicate 1200 (joinWords (List.replicate 200 ['a']))) := by
  have hlen : MAX_RECORDS ≤ (buildRecords (fun a _ => a) (fun _ => [])
      (List.replicate 1200 (joinWords (List.replicate 200 ['a'])))).length := by
    rw [buildRecords, recordLoop_replicate_len (fun _ => []) 1200 [] (by decide)]
    decide
  exact ⟨hlen,
    (buildRecords_cap (fun a _ => a) (fun _ => []) _).2 _ _ rfl hlen⟩

end MakeData
